import Mathlib

/-!
# Verified memory core: hash verification, embeddings, and confidence model

A shallow embedding of the memory subsystem of the `homegpt` repository
(`src/memory/verification.rs` and `src/memory/embeddings.rs`), together with
theorems settling the specified properties of chunk hashing, hash
verification, the confidence table, embedding normalization, cosine
similarity, vector (de)serialization, and the embedding providers.

Rust machine integers are modelled as `Nat`/`Int` with explicit reduction
modulo `2 ^ 32` where the source wraps; `f32` vectors are modelled over `ℝ`
(for the numeric kernel) and over `ℚ` (for the exact JSON codec); fallible
operations return `Except`/`Option`. SQLite tables are modelled as finite
maps from primary key to row. The SHA-256 implementation is executable and
matches the FIPS 180-4 test vectors.
-/

namespace HomeGpt

/-! ## 32-bit word kernel (model of Rust `u32` arithmetic used by SHA-256) -/

/-- Truncate to a 32-bit word. -/
def w32 (n : Nat) : Nat := n % 4294967296

/-- Rotate a 32-bit word right by `i` bits. -/
def rotr32 (w i : Nat) : Nat := w32 (w <<< (32 - i)) ||| (w >>> i)

/-- SHA-256 big sigma 0. -/
def bigSigma0 (w : Nat) : Nat := rotr32 w 2 ^^^ (rotr32 w 13 ^^^ rotr32 w 22)

/-- SHA-256 big sigma 1. -/
def bigSigma1 (w : Nat) : Nat := rotr32 w 6 ^^^ (rotr32 w 11 ^^^ rotr32 w 25)

/-- SHA-256 small sigma 0. -/
def smallSigma0 (w : Nat) : Nat := rotr32 w 7 ^^^ (rotr32 w 18 ^^^ (w >>> 3))

/-- SHA-256 small sigma 1. -/
def smallSigma1 (w : Nat) : Nat := rotr32 w 17 ^^^ (rotr32 w 19 ^^^ (w >>> 10))

/-- SHA-256 choice function; bitwise NOT of a 32-bit word is XOR with `2^32 - 1`. -/
def ch32 (e f g : Nat) : Nat := (e &&& f) ^^^ ((e ^^^ 4294967295) &&& g)

/-- SHA-256 majority function. -/
def maj32 (a b c : Nat) : Nat := (a &&& b) ^^^ ((a &&& c) ^^^ (b &&& c))

/-- The 64 SHA-256 round constants. -/
def sha256K : List Nat :=
  [1116352408, 1899447441, 3049323471, 3921009573, 961987163,
   1508970993, 2453635748, 2870763221, 3624381080, 310598401,
   607225278, 1426881987, 1925078388, 2162078206, 2614888103,
   3248222580, 3835390401, 4022224774, 264347078, 604807628,
   770255983, 1249150122, 1555081692, 1996064986, 2554220882,
   2821834349, 2952996808, 3210313671, 3336571891, 3584528711,
   113926993, 338241895, 666307205, 773529912, 1294757372,
   1396182291, 1695183700, 1986661051, 2177026350, 2456956037,
   2730485921, 2820302411, 3259730800, 3345764771, 3516065817,
   3600352804, 4094571909, 275423344, 430227734, 506948616,
   659060556, 883997877, 958139571, 1322822218, 1537002063,
   1747873779, 1955562222, 2024104815, 2227730452, 2361852424,
   2428436474, 2756734187, 3204031479, 3329325298]

/-- Big-endian byte expansion: the `k` bytes of `n`, most significant first. -/
def beBytes (k n : Nat) : List Nat :=
  (List.range k).map (fun i => n >>> (8 * (k - 1 - i)) % 256)

/-- SHA-256 padding: append `0x80`, zero bytes, and the 64-bit message bit length,
reaching a multiple of 64 bytes. -/
def padMsg (msg : List Nat) : List Nat :=
  msg ++ 128 :: (List.replicate ((119 - msg.length % 64) % 64) 0 ++ beBytes 8 (8 * msg.length))

/-- Group bytes into 32-bit big-endian words. -/
def beWords : List Nat → List Nat
  | b0 :: b1 :: b2 :: b3 :: rest => (((b0 * 256 + b1) * 256 + b2) * 256 + b3) :: beWords rest
  | _ => []

/-- One step of the SHA-256 message-schedule extension. -/
def stepW (w : List Nat) : List Nat :=
  let i := w.length
  w ++ [w32 (w.getD (i - 16) 0 + smallSigma0 (w.getD (i - 15) 0) + w.getD (i - 7) 0
        + smallSigma1 (w.getD (i - 2) 0))]

/-- Extend the message schedule by `k` further words. -/
def extendW : Nat → List Nat → List Nat
  | 0, w => w
  | k + 1, w => extendW k (stepW w)

/-- The eight 32-bit working variables of SHA-256. -/
structure Hash8 where
  a : Nat
  b : Nat
  c : Nat
  d : Nat
  e : Nat
  f : Nat
  g : Nat
  h : Nat

/-- The SHA-256 initial hash value. -/
def initH : Hash8 :=
  ⟨1779033703, 3144134277, 1013904242, 2773480762,
   1359893119, 2600822924, 528734635, 1541459225⟩

/-- One SHA-256 compression round with round constant `ki` and schedule word `wi`. -/
def round256 (s : Hash8) (ki wi : Nat) : Hash8 :=
  let t1 := w32 (s.h + bigSigma1 s.e + ch32 s.e s.f s.g + ki + wi)
  let t2 := w32 (bigSigma0 s.a + maj32 s.a s.b s.c)
  ⟨w32 (t1 + t2), s.a, s.b, s.c, w32 (s.d + t1), s.e, s.f, s.g⟩

/-- Compress one 64-byte block (given as its 16 words) into the running state. -/
def compressBlock (s : Hash8) (words : List Nat) : Hash8 :=
  let w := extendW 48 words
  let t := (sha256K.zip w).foldl (fun s p => round256 s p.1 p.2) s
  ⟨w32 (s.a + t.a), w32 (s.b + t.b), w32 (s.c + t.c), w32 (s.d + t.d),
   w32 (s.e + t.e), w32 (s.f + t.f), w32 (s.g + t.g), w32 (s.h + t.h)⟩

/-- Fold the compression function over `k` consecutive 64-byte blocks. -/
def sha256Go : Nat → Hash8 → List Nat → Hash8
  | 0, s, _ => s
  | k + 1, s, bytes => sha256Go k (compressBlock s (beWords (bytes.take 64))) (bytes.drop 64)

/-- SHA-256 of a byte list, as its 32 output bytes. -/
def sha256 (msg : List Nat) : List Nat :=
  let padded := padMsg msg
  let s := sha256Go (padded.length / 64) initH padded
  beBytes 4 s.a ++ beBytes 4 s.b ++ beBytes 4 s.c ++ beBytes 4 s.d ++
  beBytes 4 s.e ++ beBytes 4 s.f ++ beBytes 4 s.g ++ beBytes 4 s.h

/-! ## Hex and UTF-8 encoding -/

/-- The sixteen lowercase hex digits, in order. -/
def hexDigits : List Char := "0123456789abcdef".data

/-- Two lowercase hex characters for one byte, as produced by the Rust `{:x}` format. -/
def hexByte (b : Nat) : List Char := [hexDigits.getD (b / 16 % 16) '0', hexDigits.getD (b % 16) '0']

/-- Lowercase hex rendering of a byte list. -/
def hexOfBytes (bs : List Nat) : List Char := (bs.map hexByte).flatten

/-- UTF-8 encoding of one character (model of Rust `str::as_bytes` per character). -/
def utf8Char (c : Char) : List Nat :=
  let n := c.toNat
  if n < 128 then [n]
  else if n < 2048 then [192 + n / 64, 128 + n % 64]
  else if n < 65536 then [224 + n / 4096, 128 + n / 64 % 64, 128 + n % 64]
  else [240 + n / 262144, 128 + n / 4096 % 64, 128 + n / 64 % 64, 128 + n % 64]

/-- UTF-8 bytes of a string (model of Rust `str::as_bytes`). -/
def utf8Bytes (s : String) : List Nat := (s.data.map utf8Char).flatten

/-- The exact byte stream hashed by `compute_chunk_hash`:
`path ++ 0x7C ++ content ++ 0x7C ++ timestamp`. -/
def chunkHashInput (path content timestamp : String) : List Nat :=
  utf8Bytes path ++ 124 :: (utf8Bytes content ++ 124 :: utf8Bytes timestamp)

/-- Model of `compute_chunk_hash` (`verification.rs`): SHA-256 over
`path | content | timestamp` with literal pipe separators, rendered as
lowercase hex. The incremental `hasher.update` calls of the source hash the
concatenation of their arguments. -/
def compute_chunk_hash (path content timestamp : String) : String :=
  String.mk (hexOfBytes (sha256 (chunkHashInput path content timestamp)))

/-! ## Provenance and confidence (`verification.rs`) -/

/-- Source provenance of a memory chunk: where the information came from. -/
inductive Provenance where
  | UserStated : Provenance
  | WebSearch (url query : String) : Provenance
  | FileContent (path : String) : Provenance
  | HeartbeatDiscovery (task : String) : Provenance
  | Unknown : Provenance
deriving DecidableEq

/-- Confidence level for memory results, ordered `None < Low < Medium < High`. -/
inductive Confidence where
  | None : Confidence
  | Low : Confidence
  | Medium : Confidence
  | High : Confidence
deriving DecidableEq

/-- Model of `serde_json::to_string` on `Provenance`: the externally tagged JSON
form, for field strings that need no JSON escaping. -/
def serializeProvenance : Provenance → String
  | .UserStated => "\"UserStated\""
  | .WebSearch url query =>
      "\x7b\"WebSearch\":\x7b\"url\":\"" ++ url ++ "\",\"query\":\"" ++ query ++ "\"\x7d\x7d"
  | .FileContent path => "\x7b\"FileContent\":\x7b\"path\":\"" ++ path ++ "\"\x7d\x7d"
  | .HeartbeatDiscovery task => "\x7b\"HeartbeatDiscovery\":\x7b\"task\":\"" ++ task ++ "\"\x7d\x7d"
  | .Unknown => "\"Unknown\""

/-- Consume an expected literal character sequence from the front of the input. -/
def expectChars (pre s : List Char) : Option (List Char) :=
  if s.take pre.length = pre then some (s.drop pre.length) else none

/-- Consume a JSON string literal (escape-free model): an opening quote, the body
up to the next quote, and the closing quote. -/
def takeStr : List Char → Option (String × List Char)
  | '"' :: rest =>
      match rest.dropWhile (· ≠ '"') with
      | '"' :: rem => some (String.mk (rest.takeWhile (· ≠ '"')), rem)
      | _ => none
  | _ => none

/-- Parse one single-field externally tagged struct variant
`{"TAG":{"FIELD":"VALUE"}}`, returning the value. -/
def parseTagged1 (tag field : String) (cs : List Char) : Option String := do
  let cs ← expectChars (("\x7b\"" ++ tag ++ "\":\x7b\"" ++ field ++ "\":").data) cs
  let (v, cs) ← takeStr cs
  let cs ← expectChars "\x7d\x7d".data cs
  if cs = [] then some v else none

/-- Model of `serde_json::from_str::<Provenance>`: parse the externally tagged
JSON forms of §6 of the spec (escape-free string model); anything else fails. -/
def parseProvenance (s : String) : Option Provenance :=
  if s = "\"UserStated\"" then some .UserStated
  else if s = "\"Unknown\"" then some .Unknown
  else
    match (do
        let cs ← expectChars "\x7b\"WebSearch\":\x7b\"url\":".data s.data
        let (url, cs) ← takeStr cs
        let cs ← expectChars ",\"query\":".data cs
        let (query, cs) ← takeStr cs
        let cs ← expectChars "\x7d\x7d".data cs
        if cs = [] then some (Provenance.WebSearch url query) else none : Option Provenance) with
    | some p => some p
    | none =>
      match parseTagged1 "FileContent" "path" s.data with
      | some path => some (.FileContent path)
      | none =>
        match parseTagged1 "HeartbeatDiscovery" "task" s.data with
        | some task => some (.HeartbeatDiscovery task)
        | none => none

/-- The `unwrap_or(Provenance::Unknown)` of `get_chunk_info`: a provenance string
that fails to parse degrades to `Unknown`. -/
def deserializeProvenance (s : String) : Provenance :=
  (parseProvenance s).getD .Unknown

/-- Model of `ChunkVerifier::calculate_confidence`: derive a confidence level
from verification status, provenance, and access count (the unused
`last_accessed` argument of the source is kept). -/
def calculate_confidence (verified : Bool) (provenance : Provenance) (access_count : Int)
    (_last_accessed : Option String) : Confidence :=
  if !verified then .None
  else
    match provenance with
    | .UserStated => if access_count > 2 then .High else .High
    | .FileContent _ => if access_count > 5 then .High else .Medium
    | .WebSearch _ _ => .Medium
    | .HeartbeatDiscovery _ => .Medium
    | .Unknown => if access_count > 10 then .Medium else .Low

/-- The confidence table exactly as the spec states it, written from the words
of §4.5 of the spec for comparison with `calculate_confidence`. -/
def confidenceSpecTable (verified : Bool) (provenance : Provenance) (access_count : Int) :
    Confidence :=
  match verified, provenance with
  | false, _ => .None
  | true, .UserStated => .High
  | true, .FileContent _ => if access_count > 5 then .High else .Medium
  | true, .WebSearch _ _ => .Medium
  | true, .HeartbeatDiscovery _ => .Medium
  | true, .Unknown => if access_count > 10 then .Medium else .Low

/-! ## The `chunk_hashes` table (`verification.rs`)

The SQLite table is modelled as a finite map from the `chunk_id` primary key
to its row. Database reads in the source go through `rusqlite::query_row`,
which reports an absent row as the error `QueryReturnedNoRows`; the source
collapses both error cases with `.ok()`. -/

/-- One row of the `chunk_hashes` table. -/
structure HashRow where
  path : String
  hash : String
  timestamp : String
  provenance_str : String
  access_count : Int
  last_accessed : Option String
  created_at : String
deriving DecidableEq

/-- The `chunk_hashes` table: a map from `chunk_id` to its row. -/
def HashTable := String → Option HashRow

/-- The empty table. -/
def emptyTable : HashTable := fun _ => none

/-- A database error as seen by a `rusqlite` call: either the absent-row marker
or an underlying storage failure. -/
inductive DbError where
  | queryReturnedNoRows : DbError
  | storage (msg : String) : DbError
deriving DecidableEq

/-- Model of `ChunkVerifier::record_hash`: compute the hash bound to
`(path, content, now)`, serialize the provenance, and upsert the row with
`access_count = 0` (the `INSERT OR REPLACE` column list omits `last_accessed`,
so a replaced row has it `NULL`). Returns the hash and the updated table. -/
def record_hash (st : HashTable) (chunk_id path content : String) (provenance : Provenance)
    (now : String) : String × HashTable :=
  let hash := compute_chunk_hash path content now
  let provenance_str := serializeProvenance provenance
  (hash, fun j => if j = chunk_id
    then some ⟨path, hash, now, provenance_str, 0, none, now⟩
    else st j)

/-- The single SQL UPDATE of `verify_chunk` on a hash match: increment
`access_count` and set `last_accessed` on the row of `chunk_id`. -/
def bumpAccess (st : HashTable) (chunk_id now : String) : HashTable :=
  fun j => if j = chunk_id
    then (st j).map (fun r => { r with access_count := r.access_count + 1,
                                       last_accessed := some now })
    else st j

/-- The SELECT of `verify_chunk`: `hash` and `timestamp` of the row of
`chunk_id`, or `QueryReturnedNoRows`. -/
def dbQueryHashTs (st : HashTable) (chunk_id : String) : Except DbError (String × String) :=
  match st chunk_id with
  | some r => .ok (r.hash, r.timestamp)
  | none => .error .queryReturnedNoRows

/-- Model of `ChunkVerifier::verify_chunk`: load `(stored_hash, timestamp)`
(collapsing query errors with `.ok()`), recompute the hash over
`(path, content, stored timestamp)`, and on a match bump the access statistics.
Returns the verification verdict and the updated table. -/
def verify_chunk (st : HashTable) (chunk_id path content : String) (now : String) :
    Bool × HashTable :=
  match (dbQueryHashTs st chunk_id).toOption with
  | some (stored_hash, timestamp) =>
      if stored_hash = compute_chunk_hash path content timestamp
      then (true, bumpAccess st chunk_id now)
      else (false, st)
  | none => (false, st)

/-- The return value of `verify_chunk` as a function of the raw outcome of its
SELECT: the source applies `.ok()` to the query result, so both an absent row
and a storage error became `None` and the function returns `Ok(false)`. -/
def verify_from_query (q : Except DbError (String × String)) (path content : String) :
    Except DbError Bool :=
  match q.toOption with
  | some (stored_hash, timestamp) =>
      .ok (decide (stored_hash = compute_chunk_hash path content timestamp))
  | none => .ok false

/-- The return value of `get_chunk_info` as a function of the raw outcome of its
SELECT: `.ok()` collapses storage errors and the absent row to `Ok(None)`;
a present row has its provenance string deserialized with
`unwrap_or(Unknown)`. -/
def info_from_query (q : Except DbError (String × String × Int × Option String)) :
    Except DbError (Option (String × Provenance × Int × Option String)) :=
  match q.toOption with
  | some (hash, provenance_str, access_count, last_accessed) =>
      .ok (some (hash, deserializeProvenance provenance_str, access_count, last_accessed))
  | none => .ok none

/-- Model of `ChunkVerifier::get_chunk_info` on the table model. -/
def get_chunk_info (st : HashTable) (chunk_id : String) :
    Except DbError (Option (String × Provenance × Int × Option String)) :=
  info_from_query (match st chunk_id with
    | some r => .ok (r.hash, r.provenance_str, r.access_count, r.last_accessed)
    | none => .error .queryReturnedNoRows)

/-! ## Embedding numeric kernel (`embeddings.rs`)

The `f32` vectors of the source are modelled over the reals; the `1e-10`
magnitude guard and the division structure carry over verbatim. -/

/-- Sum of squares of the components of a vector. -/
def sumSq (v : List ℝ) : ℝ := (v.map (fun x => x * x)).sum

/-- The magnitude computed by `normalize_embedding`: `sqrt (Σ vᵢ²)`. -/
noncomputable def magnitude (v : List ℝ) : ℝ := Real.sqrt (sumSq v)

/-- Model of `normalize_embedding`: if the magnitude exceeds `1e-10`, divide
every component by it; otherwise return the vector unchanged. -/
noncomputable def normalize_embedding (v : List ℝ) : List ℝ :=
  if magnitude v > 1e-10 then v.map (fun x => x / magnitude v) else v

/-- Model of `cosine_similarity`: `0.0` on a length mismatch, otherwise the dot
product of the zipped components. Total, hence the source contract of never
panicking. -/
def cosine_similarity (a b : List ℝ) : ℝ :=
  if a.length ≠ b.length then 0 else ((a.zip b).map (fun p => p.1 * p.2)).sum

/-- The dot product `Σ aᵢ·bᵢ` as the spec writes it. -/
def dotProductSpec (a b : List ℝ) : ℝ := ((a.zip b).map (fun p => p.1 * p.2)).sum

/-! ## Embedding providers (`embeddings.rs`)

Each provider has an effectful batch back end: the HTTP round trip of the
OpenAI provider, and the blocking fastembed inference of the local provider.
Both are modelled as oracles `List String → Except EmbError (List (List ℝ))`
giving the raw vectors; the provider code around the oracle is embedded
verbatim (empty-input short circuit, normalization, first-element
extraction). -/

/-- Errors of an embedding operation. -/
inductive EmbError where
  | noEmbedding : EmbError
  | api (status : Nat) (body : String) : EmbError
  | network (msg : String) : EmbError
deriving DecidableEq

/-- The effectful part of a batch embedding call: raw vectors per input text. -/
def EmbBatchOracle := List String → Except EmbError (List (List ℝ))

/-- Model of `OpenAIEmbeddingProvider::embed_batch`: empty input returns the
empty batch without a call; otherwise the HTTP response vectors are each
normalized. -/
noncomputable def openai_embed_batch (oracle : EmbBatchOracle) (texts : List String) :
    Except EmbError (List (List ℝ)) :=
  if texts.isEmpty then .ok []
  else (oracle texts).map (fun data => data.map normalize_embedding)

/-- Model of `OpenAIEmbeddingProvider::embed`: embed the singleton batch and
take the first result, failing with `No embedding returned` on an empty
batch result. -/
noncomputable def openai_embed (oracle : EmbBatchOracle) (text : String) :
    Except EmbError (List ℝ) :=
  match openai_embed_batch oracle [text] with
  | .error e => .error e
  | .ok results =>
      match results.head? with
      | some v => .ok v
      | none => .error .noEmbedding

/-- Model of `FastEmbedProvider::embed_batch`: empty input returns the empty
batch; otherwise the blocking inference result vectors are each normalized. -/
noncomputable def fastembed_embed_batch (oracle : EmbBatchOracle) (texts : List String) :
    Except EmbError (List (List ℝ)) :=
  if texts.isEmpty then .ok []
  else (oracle texts).map (fun embeddings => embeddings.map normalize_embedding)

/-- Model of `FastEmbedProvider::embed`: embed the singleton batch and take the
first result, failing with `No embedding returned` on an empty batch result. -/
noncomputable def fastembed_embed (oracle : EmbBatchOracle) (text : String) :
    Except EmbError (List ℝ) :=
  match fastembed_embed_batch oracle [text] with
  | .error e => .error e
  | .ok results =>
      match results.head? with
      | some v => .ok v
      | none => .error .noEmbedding

/-! ## JSON vector codec (`embeddings.rs`)

`serialize_embedding` and `deserialize_embedding` wrap `serde_json` on
`Vec<f32>`. Finite `f32` values are dyadic rationals and the library prints
them with enough digits to parse back exactly, so the number layer is
modelled as exact decimal printing and parsing of dyadic rationals over `ℚ`;
the array layer (brackets, comma separation, failure handling) is embedded
from the source. -/

/-- The character of a decimal digit. -/
def digitChar (d : Nat) : Char := Char.ofNat (d + 48)

/-- The value of a decimal digit character, if it is one. -/
def digitVal (c : Char) : Option Nat :=
  if 48 ≤ c.toNat ∧ c.toNat ≤ 57 then some (c.toNat - 48) else none

/-- Decimal digit characters of a natural number, most significant first. -/
def natChars (n : Nat) : List Char :=
  if n = 0 then ['0'] else ((Nat.digits 10 n).reverse).map digitChar

/-- Fold most-significant-first digits into a natural number. -/
def msbVal (ds : List Nat) : Nat := ds.foldl (fun a d => 10 * a + d) 0

/-- Parse a run of decimal digit characters, most significant first; any
non-digit fails. The empty run parses as `0`. -/
def parseNatChars (cs : List Char) : Option Nat :=
  cs.foldl (fun acc c => acc.bind (fun a => (digitVal c).map (fun d => 10 * a + d))) (some 0)

/-- Exact decimal rendering of the non-negative value `N / 10^k`: the integer
part, a decimal point, and `max k 1` fraction digits with leading zeros. -/
def ratSerializeUnsigned (N k : Nat) : List Char :=
  let fracDigits := ((Nat.digits 10 (N % 10 ^ k)).reverse).map digitChar
  natChars (N / 10 ^ k) ++
    '.' :: (List.replicate (max k 1 - fracDigits.length) '0' ++ fracDigits)

/-- Exact decimal rendering of a dyadic rational `n / 2^k`: the sign, then the
decimal expansion of `|n| * 5^k / 10^k`. Model of the JSON number form of a
finite `f32`. -/
def ratSerialize (q : ℚ) : List Char :=
  (if q.num < 0 then ['-'] else []) ++
    ratSerializeUnsigned (q.num.natAbs * 5 ^ Nat.log2 q.den) (Nat.log2 q.den)

/-- Parse an unsigned decimal number (integer part, optional point and
fraction) into an exact rational. -/
def ratParseUnsigned (cs : List Char) : Option ℚ :=
  let ip := cs.takeWhile (· ≠ '.')
  match cs.dropWhile (· ≠ '.') with
  | '.' :: fr => do
      let i ← parseNatChars ip
      let f ← parseNatChars fr
      pure ((i : ℚ) + (f : ℚ) / 10 ^ fr.length)
  | [] => do
      let i ← parseNatChars ip
      pure ((i : ℚ))
  | _ => none

/-- Parse a decimal number with an optional leading minus sign. -/
def ratParse (cs : List Char) : Option ℚ :=
  if cs.head? = some '-' then (ratParseUnsigned cs.tail).map (fun q => -q)
  else ratParseUnsigned cs

/-- Model of `serialize_embedding`: the JSON array of the components. The
`unwrap_or_else` branch of the source returns `"[]"` on a serialization
failure; serialization of a float slice never fails, so the model is total. -/
def serialize_embedding (v : List ℚ) : String :=
  String.mk ('[' :: List.intercalate [','] (v.map ratSerialize) ++ [']'])

/-- Parse every element of a comma-split array body; any failure fails. -/
def parseAll : List (List Char) → Option (List ℚ)
  | [] => some []
  | c :: r =>
      match ratParse c, parseAll r with
      | some q, some t => some (q :: t)
      | _, _ => none

/-- Model of `serde_json::from_str::<Vec<f32>>`: a bracketed, comma-separated
list of decimal numbers; anything else fails. -/
def parseFloatList (s : String) : Option (List ℚ) :=
  match s.data with
  | '[' :: rest =>
      match rest.getLast? with
      | some ']' =>
          let body := rest.dropLast
          if body = [] then some [] else parseAll (body.splitOn ',')
      | _ => none
  | _ => none

/-- Model of `deserialize_embedding`: parse the JSON array, degrading any
parse failure to the empty vector (`unwrap_or_default`). -/
def deserialize_embedding (s : String) : List ℚ :=
  (parseFloatList s).getD []

/-! ## Auxiliary definitions used by the statements -/

/-- A string of `n` repeated letters, used to exhibit infinitely many distinct
contents. -/
def aString (n : Nat) : String := String.mk (List.replicate n 'a')

/-- A rational is dyadic when its reduced denominator is a power of two; the
value set of finite `f32` floats is a subset of the dyadic rationals. -/
def IsDyadic (q : ℚ) : Prop := ∃ k, q.den = 2 ^ k

/-- Base-256 value of a byte list, least significant byte first; injective on
byte lists of a fixed length, which transports a pigeonhole collision from
values back to SHA-256 outputs. -/
def beVal (l : List Nat) : Nat := l.foldr (fun b acc => b + 256 * acc) 0

/-! ## C1: the confidence table -/

/-- C1: `calculate_confidence` is a total, deterministic function of
`(verified, provenance, access_count)` matching the spec table exactly, with
strict inequalities at the boundaries: `access_count = 5` on `FileContent`
gives `Medium` and `access_count = 10` on `Unknown` gives `Low`. -/
theorem calculate_confidence_matches_spec_table (v : Bool) (p : Provenance) (ac : Int)
    (la la5 la10 : Option String) :
    calculate_confidence v p ac la = confidenceSpecTable v p ac ∧
    calculate_confidence true (.FileContent "notes.md") 5 la5 = .Medium ∧
    calculate_confidence true .Unknown 10 la10 = .Low := by
  refine ⟨?_, by norm_num [calculate_confidence], by norm_num [calculate_confidence]⟩
  cases v <;> cases p <;> simp [calculate_confidence, confidenceSpecTable]

/-! ## C6: totality of cosine similarity -/

/-- C6: `cosine_similarity` is total (the Lean model is a total function, the
contract of never panicking): it returns `0.0` whenever the lengths differ,
and otherwise the dot product `Σ aᵢ·bᵢ`. -/
theorem cosine_similarity_total (a b : List ℝ) :
    (a.length ≠ b.length → cosine_similarity a b = 0) ∧
    (a.length = b.length → cosine_similarity a b = dotProductSpec a b) := by
  constructor <;> intro h <;> simp [cosine_similarity, dotProductSpec, h]

/-- C6 witness: the theorem applied at a length mismatch and at a match. -/
theorem cosine_similarity_total_witness :
    cosine_similarity [(1 : ℝ)] [] = 0 ∧
    cosine_similarity [(2 : ℝ)] [(3 : ℝ)] = dotProductSpec [(2 : ℝ)] [(3 : ℝ)] :=
  ⟨(cosine_similarity_total [(1 : ℝ)] []).1 (by simp),
   (cosine_similarity_total [(2 : ℝ)] [(3 : ℝ)]).2 (by simp)⟩

/-! ## C7: database errors in the SELECT of `verify_chunk` / `get_chunk_info`

The source applies `.ok()` to the `query_row` result, which collapses a
storage failure and the absent-row marker alike to `None`: a failed SELECT is
silently reported as `Ok(false)` respectively `Ok(None)` instead of an error. -/

/-- C7 counterexample: it is not the case that a SELECT failing with a database
error (rather than the absent-row marker) makes `verify_chunk` or
`get_chunk_info` return an error: on `storage "disk I/O error"` the source
returns `Ok(false)` and `Ok(None)`. -/
theorem select_error_not_propagated :
    ¬ (∀ (e : DbError) (p c : String), e ≠ DbError.queryReturnedNoRows →
        (∃ err, verify_from_query (.error e) p c = .error err) ∧
        (∃ err, info_from_query (.error e) = .error err)) := by
  intro h
  obtain ⟨⟨err, herr⟩, -⟩ := h (.storage "disk I/O error") "p" "c" (by simp)
  simp [verify_from_query, Except.toOption] at herr

/-- C7 amended: a database error in the SELECT is swallowed by the `.ok()` of
the source; `verify_chunk` returns `Ok(false)` and `get_chunk_info` returns
`Ok(None)`, exactly as for an absent row. -/
theorem select_error_swallowed (msg p c : String) :
    verify_from_query (.error (.storage msg)) p c = .ok false ∧
    info_from_query (.error (.storage msg)) = .ok none ∧
    verify_from_query (.error .queryReturnedNoRows) p c = .ok false ∧
    info_from_query (.error .queryReturnedNoRows) = .ok none :=
  ⟨rfl, rfl, rfl, rfl⟩

/-! ## C8: malformed persisted data degrades gracefully -/

/-- C8: a provenance string that fails to parse deserializes to `Unknown`, and
`get_chunk_info` still succeeds on such a row (returning `Ok(Some(...))` with
`Unknown` substituted); an embedding string that fails to parse deserializes
to the empty vector. -/
theorem malformed_data_degrades :
    (∀ s, parseProvenance s = none → deserializeProvenance s = .Unknown) ∧
    (∀ (st : HashTable) (id : String) (r : HashRow), st id = some r →
      parseProvenance r.provenance_str = none →
      get_chunk_info st id =
        .ok (some (r.hash, .Unknown, r.access_count, r.last_accessed))) ∧
    (∀ s, parseFloatList s = none → deserialize_embedding s = []) := by
  refine ⟨fun s hs => ?_, fun st id r hr hs => ?_, fun s hs => ?_⟩
  · simp [deserializeProvenance, hs]
  · simp [get_chunk_info, info_from_query, hr, Except.toOption, deserializeProvenance, hs]
  · simp [deserialize_embedding, hs]

/-- C8 witness: an unknown provenance tag degrades to `Unknown` inside a
successful `get_chunk_info`, and a non-JSON embedding string deserializes to
the empty vector. -/
theorem malformed_data_degrades_witness :
    parseProvenance "\x7b\"NewTag\":\x7b\"x\":\"1\"\x7d\x7d" = none ∧
    deserializeProvenance "\x7b\"NewTag\":\x7b\"x\":\"1\"\x7d\x7d" = .Unknown ∧
    parseFloatList "not json" = none ∧
    deserialize_embedding "not json" = [] ∧
    get_chunk_info
      (fun j => if j = "c1"
        then some ⟨"a.md", "h", "t", "\x7b\"NewTag\":\x7b\"x\":\"1\"\x7d\x7d", 3, none, "t"⟩
        else none) "c1" = .ok (some ("h", .Unknown, 3, none)) := by
  refine ⟨by decide, (malformed_data_degrades.1 _ (by decide)), by decide,
    (malformed_data_degrades.2.2 _ (by decide)), ?_⟩
  exact malformed_data_degrades.2.1 _ "c1" ⟨"a.md", "h", "t", "\x7b\"NewTag\":\x7b\"x\":\"1\"\x7d\x7d", 3, none, "t"⟩
    (by simp) (by decide)

/-! ## C2: behavior of `verify_chunk` -/

/-- C2: `verify_chunk` returns false and leaves the table untouched when no row
exists; on a hash match it returns true and bumps exactly that row, adding 1
to `access_count` (a strict increase) and setting `last_accessed`, with hash,
timestamp and path unchanged; on a mismatch it returns false and leaves the
table untouched. -/
theorem verify_chunk_cases (st : HashTable) (id p c now : String) :
    (st id = none → verify_chunk st id p c now = (false, st)) ∧
    (∀ r : HashRow, st id = some r →
      (r.hash = compute_chunk_hash p c r.timestamp →
        verify_chunk st id p c now = (true, bumpAccess st id now) ∧
        bumpAccess st id now id =
          some { r with access_count := r.access_count + 1, last_accessed := some now } ∧
        r.access_count < r.access_count + 1 ∧
        (∀ j, j ≠ id → bumpAccess st id now j = st j)) ∧
      (r.hash ≠ compute_chunk_hash p c r.timestamp →
        verify_chunk st id p c now = (false, st))) := by
  refine ⟨fun hnone => ?_, fun r hr => ⟨fun heq => ⟨?_, ?_, by omega, fun j hj => ?_⟩,
    fun hne => ?_⟩⟩
  · simp [verify_chunk, dbQueryHashTs, hnone, Except.toOption]
  · simp [verify_chunk, dbQueryHashTs, hr, Except.toOption, heq]
  · simp [bumpAccess, hr]
  · simp [bumpAccess, hj]
  · simp [verify_chunk, dbQueryHashTs, hr, Except.toOption, hne]

set_option maxRecDepth 100000 in
/-- C2 witness: the theorem applied to the empty table (no row: false), to a
table whose stored hash matches (true, count bumped from 7 to 8), and to one
whose stored hash differs (false, untouched). -/
theorem verify_chunk_cases_witness :
    (verify_chunk emptyTable "c1" "notes.md" "alpha" "now2" = (false, emptyTable)) ∧
    (∀ st : HashTable, st = (fun j => if j = "c1"
        then some ⟨"notes.md", compute_chunk_hash "notes.md" "alpha" "t1", "t1",
                   "\"UserStated\"", 7, none, "t1"⟩
        else none) →
      verify_chunk st "c1" "notes.md" "alpha" "now2" = (true, bumpAccess st "c1" "now2") ∧
      bumpAccess st "c1" "now2" "c1" =
        some ⟨"notes.md", compute_chunk_hash "notes.md" "alpha" "t1", "t1",
              "\"UserStated\"", 8, some "now2", "t1"⟩) ∧
    (∀ st : HashTable, st = (fun j => if j = "c1"
        then some ⟨"notes.md", "deadbeef", "t1", "\"UserStated\"", 7, none, "t1"⟩
        else none) →
      verify_chunk st "c1" "notes.md" "alpha" "now2" = (false, st)) := by
  refine ⟨(verify_chunk_cases emptyTable "c1" "notes.md" "alpha" "now2").1 rfl,
    fun st hst => ?_, fun st hst => ?_⟩
  · have h := ((verify_chunk_cases st "c1" "notes.md" "alpha" "now2").2
      ⟨"notes.md", compute_chunk_hash "notes.md" "alpha" "t1", "t1",
       "\"UserStated\"", 7, none, "t1"⟩ (by rw [hst]; simp)).1 rfl
    exact ⟨h.1, h.2.1⟩
  · exact ((verify_chunk_cases st "c1" "notes.md" "alpha" "now2").2
      ⟨"notes.md", "deadbeef", "t1", "\"UserStated\"", 7, none, "t1"⟩ (by rw [hst]; simp)).2
      (by decide)

/-! ## C3: shape of `compute_chunk_hash` -/

theorem beBytes_length (k n : Nat) : (beBytes k n).length = k := by
  simp [beBytes]

theorem beBytes_mem_lt {k n x : Nat} (hx : x ∈ beBytes k n) : x < 256 := by
  simp only [beBytes, List.mem_map] at hx
  obtain ⟨i, -, rfl⟩ := hx
  exact Nat.mod_lt _ (by norm_num)

theorem sha256_length (msg : List Nat) : (sha256 msg).length = 32 := by
  simp [sha256, beBytes_length]

theorem sha256_mem_lt {msg : List Nat} {x : Nat} (hx : x ∈ sha256 msg) : x < 256 := by
  simp only [sha256, List.mem_append] at hx
  rcases hx with ((((((h | h) | h) | h) | h) | h) | h) | h <;> exact beBytes_mem_lt h

theorem hexOfBytes_length (bs : List Nat) : (hexOfBytes bs).length = 2 * bs.length := by
  induction bs with
  | nil => simp [hexOfBytes]
  | cons b t ih =>
      simp only [hexOfBytes, List.map_cons, List.flatten_cons, List.length_append,
        List.length_cons] at *
      simp [hexByte] at *
      omega

theorem getD_hexDigits_mem (i : Nat) : hexDigits.getD i '0' ∈ hexDigits := by
  have hl : hexDigits.length = 16 := by decide
  rcases Nat.lt_or_ge i 16 with h | h
  · rw [List.getD_eq_getElem _ _ (by omega)]
    exact List.getElem_mem _
  · rw [List.getD_eq_default _ _ (by omega)]
    decide

theorem hexOfBytes_mem {bs : List Nat} {ch : Char} (hch : ch ∈ hexOfBytes bs) :
    ch ∈ hexDigits := by
  simp only [hexOfBytes, List.mem_flatten, List.mem_map] at hch
  obtain ⟨l, ⟨b, -, rfl⟩, hl⟩ := hch
  simp only [hexByte, List.mem_cons, List.mem_singleton, List.not_mem_nil, or_false] at hl
  rcases hl with rfl | rfl <;> exact getD_hexDigits_mem _

set_option maxRecDepth 100000 in
/-- C3: `compute_chunk_hash` is deterministic in its argument triple, always
returns exactly 64 lowercase hex characters, equals the SHA-256 of the bytes
`path ++ 0x7C ++ content ++ 0x7C ++ timestamp`, and the pipe separator makes
field boundaries significant, witnessed at the canonical timestamp:
`("a","bc")` and `("ab","c")` hash differently. -/
theorem compute_chunk_hash_spec (p c t p2 c2 t2 : String) :
    (p = p2 → c = c2 → t = t2 → compute_chunk_hash p c t = compute_chunk_hash p2 c2 t2) ∧
    (compute_chunk_hash p c t).length = 64 ∧
    (∀ ch ∈ (compute_chunk_hash p c t).data, ch ∈ hexDigits) ∧
    compute_chunk_hash p c t =
      String.mk (hexOfBytes (sha256 (utf8Bytes p ++ 124 :: (utf8Bytes c ++ 124 :: utf8Bytes t)))) ∧
    compute_chunk_hash "a" "bc" "2026-01-01T00:00:00Z"
      ≠ compute_chunk_hash "ab" "c" "2026-01-01T00:00:00Z" := by
  refine ⟨fun h1 h2 h3 => by rw [h1, h2, h3], ?_, fun ch hch => hexOfBytes_mem hch, rfl, by decide⟩
  show (hexOfBytes (sha256 (chunkHashInput p c t))).length = 64
  rw [hexOfBytes_length, sha256_length]

set_option maxRecDepth 100000 in
/-- C3 witness: the theorem applied at the canonical test triple, together with
the concrete digest computed by the executable model. -/
theorem compute_chunk_hash_spec_witness :
    compute_chunk_hash "test.md" "hello world" "2026-01-01T00:00:00Z"
      = compute_chunk_hash "test.md" "hello world" "2026-01-01T00:00:00Z" ∧
    (compute_chunk_hash "test.md" "hello world" "2026-01-01T00:00:00Z").length = 64 ∧
    compute_chunk_hash "test.md" "hello world" "2026-01-01T00:00:00Z"
      = "a69d8068958664670a3805003dc2a1a067e5c51729df8fbfc0938068441a5b92" :=
  ⟨(compute_chunk_hash_spec "test.md" "hello world" "2026-01-01T00:00:00Z"
      "test.md" "hello world" "2026-01-01T00:00:00Z").1 rfl rfl rfl,
   (compute_chunk_hash_spec "test.md" "hello world" "2026-01-01T00:00:00Z"
      "test.md" "hello world" "2026-01-01T00:00:00Z").2.1,
   by decide⟩

/-! ## C5: normalization

A vector of tiny but nonzero magnitude (at most `1e-10`) passes through
`normalize_embedding` unchanged, so its output magnitude is neither `0` nor
within `1e-6` of `1`: the claimed postcondition fails. What does hold is that
the output magnitude is `1` or at most `1e-10`. -/

theorem sumSq_nil : sumSq [] = 0 := rfl

theorem sumSq_cons (x : ℝ) (t : List ℝ) : sumSq (x :: t) = x * x + sumSq t := by
  simp [sumSq]

theorem sumSq_nonneg (v : List ℝ) : 0 ≤ sumSq v := by
  induction v with
  | nil => simp [sumSq_nil]
  | cons x t ih => rw [sumSq_cons]; nlinarith [mul_self_nonneg x]

theorem sumSq_map_div (v : List ℝ) {m : ℝ} (hm : m ≠ 0) :
    sumSq (v.map (fun x => x / m)) = sumSq v / (m * m) := by
  induction v with
  | nil => simp [sumSq_nil]
  | cons x t ih =>
      rw [List.map_cons, sumSq_cons, sumSq_cons, ih]
      field_simp

theorem magnitude_nonneg (v : List ℝ) : 0 ≤ magnitude v := Real.sqrt_nonneg _

/-- On the branch where the guard fires, the scaled vector has magnitude
exactly 1 over the reals. -/
theorem magnitude_map_div (v : List ℝ) (hv : 0 < magnitude v) :
    magnitude (v.map (fun x => x / magnitude v)) = 1 := by
  have hm : magnitude v ≠ 0 := ne_of_gt hv
  have hsq : magnitude v * magnitude v = sumSq v := Real.mul_self_sqrt (sumSq_nonneg v)
  have hpos : sumSq v ≠ 0 := by
    intro h0
    rw [magnitude, h0, Real.sqrt_zero] at hv
    exact lt_irrefl 0 hv
  rw [magnitude, sumSq_map_div v hm, hsq, div_self hpos, Real.sqrt_one]

/-- C5 counterexample: the vector `[1e-20]` has magnitude `1e-20 ≤ 1e-10`, so
it passes through unchanged, and the output magnitude is neither `0` nor in
`[1 - 1e-6, 1 + 1e-6]`. -/
theorem normalize_magnitude_claim_false :
    ¬ (∀ v : List ℝ, magnitude (normalize_embedding v) = 0 ∨
        (1 - 1e-6 ≤ magnitude (normalize_embedding v) ∧
         magnitude (normalize_embedding v) ≤ 1 + 1e-6)) := by
  intro h
  have hc : (0 : ℝ) ≤ 1e-20 := by norm_num
  have hmag : magnitude [(1e-20 : ℝ)] = 1e-20 := by
    rw [magnitude, sumSq_cons, sumSq_nil, add_zero, Real.sqrt_mul_self hc]
  have hpass : normalize_embedding [(1e-20 : ℝ)] = [(1e-20 : ℝ)] := by
    rw [normalize_embedding, if_neg]
    rw [hmag]
    norm_num
  have hv := h [(1e-20 : ℝ)]
  rw [hpass, hmag] at hv
  rcases hv with hv | ⟨hv, -⟩ <;> norm_num at hv

/-- C5 amended: `normalize_embedding` divides each component by the magnitude
`m = sqrt (Σ vᵢ²)` when `m > 1e-10` (the result then has magnitude exactly 1
over the reals, hence within `1e-6` in floating point) and returns the vector
unchanged otherwise (so the result magnitude equals the input magnitude, at
most `1e-10`); every output magnitude is `1` or at most `1e-10`. -/
theorem normalize_embedding_amended (v : List ℝ) :
    (magnitude v > 1e-10 →
      normalize_embedding v = v.map (fun x => x / magnitude v) ∧
      magnitude (normalize_embedding v) = 1) ∧
    (magnitude v ≤ 1e-10 → normalize_embedding v = v) ∧
    (magnitude (normalize_embedding v) = 1 ∨ magnitude (normalize_embedding v) ≤ 1e-10) := by
  have hbranch : magnitude v > 1e-10 →
      normalize_embedding v = v.map (fun x => x / magnitude v) ∧
      magnitude (normalize_embedding v) = 1 := by
    intro hgt
    have hdef : normalize_embedding v = v.map (fun x => x / magnitude v) := by
      rw [normalize_embedding, if_pos hgt]
    refine ⟨hdef, ?_⟩
    rw [hdef]
    exact magnitude_map_div v (lt_trans (by norm_num) hgt)
  have hpass : magnitude v ≤ 1e-10 → normalize_embedding v = v := by
    intro hle
    rw [normalize_embedding, if_neg (not_lt_of_le hle)]
  refine ⟨hbranch, hpass, ?_⟩
  rcases le_or_lt (magnitude v) 1e-10 with hle | hgt
  · right; rw [hpass hle]; exact hle
  · left; exact (hbranch hgt).2

/-- C5 witness: the amended theorem applied at `[3, 4]`, whose magnitude 5
exceeds the guard, giving `[3/5, 4/5]` of magnitude 1; and at `[1e-20]`,
which passes through. -/
theorem normalize_embedding_amended_witness :
    magnitude [(3 : ℝ), 4] > 1e-10 ∧
    normalize_embedding [(3 : ℝ), 4] = [3 / 5, 4 / 5] ∧
    magnitude (normalize_embedding [(3 : ℝ), 4]) = 1 ∧
    magnitude [(1e-20 : ℝ)] ≤ 1e-10 ∧
    normalize_embedding [(1e-20 : ℝ)] = [(1e-20 : ℝ)] := by
  have h5 : magnitude [(3 : ℝ), 4] = 5 := by
    rw [magnitude, sumSq_cons, sumSq_cons, sumSq_nil]
    rw [show (3 * 3 + (4 * 4 + 0) : ℝ) = 5 ^ 2 by norm_num]
    exact Real.sqrt_sq (by norm_num)
  have hgt : magnitude [(3 : ℝ), 4] > 1e-10 := by rw [h5]; norm_num
  have hmain := (normalize_embedding_amended [(3 : ℝ), 4]).1 hgt
  have hsmall : magnitude [(1e-20 : ℝ)] ≤ 1e-10 := by
    rw [magnitude, sumSq_cons, sumSq_nil, add_zero,
      Real.sqrt_mul_self (by norm_num : (0 : ℝ) ≤ 1e-20)]
    norm_num
  refine ⟨hgt, ?_, hmain.2, hsmall, (normalize_embedding_amended [(1e-20 : ℝ)]).2.1 hsmall⟩
  rw [hmain.1, h5]
  norm_num

/-! ## C10: `embed` versus `embed_batch` for both providers -/

/-- C10: for the OpenAI provider and the FastEmbed provider alike, and for any
back-end behavior, `embed text` returns exactly the first element of
`embed_batch [text]` when that result is non-empty, fails with the
`No embedding returned` error exactly when the batch result is empty, and
propagates a batch failure unchanged — so `embed` and `embed_batch` agree on
the vector produced for a text. -/
theorem embed_agrees_with_embed_batch (oracle : EmbBatchOracle) (text : String) :
    (∀ v rest, openai_embed_batch oracle [text] = .ok (v :: rest) →
      openai_embed oracle text = .ok v) ∧
    (openai_embed_batch oracle [text] = .ok [] →
      openai_embed oracle text = .error .noEmbedding) ∧
    (∀ e, openai_embed_batch oracle [text] = .error e → openai_embed oracle text = .error e) ∧
    (∀ v rest, fastembed_embed_batch oracle [text] = .ok (v :: rest) →
      fastembed_embed oracle text = .ok v) ∧
    (fastembed_embed_batch oracle [text] = .ok [] →
      fastembed_embed oracle text = .error .noEmbedding) ∧
    (∀ e, fastembed_embed_batch oracle [text] = .error e →
      fastembed_embed oracle text = .error e) := by
  refine ⟨fun v rest h => ?_, fun h => ?_, fun e h => ?_,
          fun v rest h => ?_, fun h => ?_, fun e h => ?_⟩ <;>
    simp [openai_embed, fastembed_embed, h]

/-- C10 witness: the theorem applied to a back end returning one raw vector
(the normalized vector comes back from `embed`), to one returning an empty
batch (the `No embedding returned` error), and to a failing back end (the
failure propagates). -/
theorem embed_agrees_with_embed_batch_witness :
    openai_embed (fun _ => .ok [[(2 : ℝ)]]) "hi" = .ok (normalize_embedding [(2 : ℝ)]) ∧
    openai_embed (fun _ => .ok []) "hi" = .error .noEmbedding ∧
    fastembed_embed (fun _ => .error (.network "timeout")) "hi" =
      .error (.network "timeout") :=
  ⟨(embed_agrees_with_embed_batch (fun _ => .ok [[(2 : ℝ)]]) "hi").1
      (normalize_embedding [(2 : ℝ)]) [] rfl,
   (embed_agrees_with_embed_batch (fun _ => .ok []) "hi").2.1 rfl,
   (embed_agrees_with_embed_batch (fun _ => .error (.network "timeout")) "hi").2.2.2.2.2
      (.network "timeout") rfl⟩

/-! ## C4: record followed by verify

The round trip on identical content holds. The universally quantified claim
that *any* different content fails to verify is the injectivity of SHA-256 in
the content position; it is provably false by pigeonhole, because infinitely
many contents share finitely many digests. What holds is the claim relative
to the hashes actually differing, which is decidable for any given pair. -/

theorem beVal_lt {l : List Nat} (hl : ∀ b ∈ l, b < 256) : beVal l < 256 ^ l.length := by
  induction l with
  | nil => simp [beVal]
  | cons b t ih =>
      have hb : b < 256 := hl b (List.mem_cons_self b t)
      have ht : beVal t < 256 ^ t.length := ih (fun x hx => hl x (List.mem_cons_of_mem b hx))
      have hpow : 256 ^ (b :: t).length = 256 * 256 ^ t.length := by
        rw [List.length_cons, pow_succ]
        ring
      have hv : beVal (b :: t) = b + 256 * beVal t := rfl
      rw [hv, hpow]
      omega

theorem beVal_inj : ∀ {l1 l2 : List Nat}, l1.length = l2.length →
    (∀ b ∈ l1, b < 256) → (∀ b ∈ l2, b < 256) → beVal l1 = beVal l2 → l1 = l2 := by
  intro l1
  induction l1 with
  | nil => intro l2 hlen _ _ _; cases l2 with
      | nil => rfl
      | cons _ _ => simp at hlen
  | cons b1 t1 ih =>
      intro l2 hlen h1 h2 hval
      cases l2 with
      | nil => simp at hlen
      | cons b2 t2 =>
          have hb1 : b1 < 256 := h1 b1 (List.mem_cons_self b1 t1)
          have hb2 : b2 < 256 := h2 b2 (List.mem_cons_self b2 t2)
          have hv1 : beVal (b1 :: t1) = b1 + 256 * beVal t1 := rfl
          have hv2 : beVal (b2 :: t2) = b2 + 256 * beVal t2 := rfl
          rw [hv1, hv2] at hval
          have hb : b1 = b2 ∧ beVal t1 = beVal t2 := by omega
          have htl : t1 = t2 := ih (by simpa using hlen)
            (fun x hx => h1 x (List.mem_cons_of_mem b1 hx))
            (fun x hx => h2 x (List.mem_cons_of_mem b2 hx)) hb.2
          rw [hb.1, htl]

theorem aString_injective : Function.Injective aString := by
  intro a b hab
  have h := congrArg (fun s => s.data.length) hab
  simpa [aString] using h

theorem verify_chunk_eq_true {st : HashTable} {id : String} (p c now : String) {r : HashRow}
    (hr : st id = some r) (hh : r.hash = compute_chunk_hash p c r.timestamp) :
    verify_chunk st id p c now = (true, bumpAccess st id now) := by
  simp [verify_chunk, dbQueryHashTs, hr, Except.toOption, hh]

theorem verify_chunk_eq_false {st : HashTable} {id : String} (p c now : String) {r : HashRow}
    (hr : st id = some r) (hh : r.hash ≠ compute_chunk_hash p c r.timestamp) :
    verify_chunk st id p c now = (false, st) := by
  simp [verify_chunk, dbQueryHashTs, hr, Except.toOption, hh]

theorem record_hash_lookup (st : HashTable) (id p c : String) (prov : Provenance)
    (now : String) :
    (record_hash st id p c prov now).2 id =
      some ⟨p, compute_chunk_hash p c now, now, serializeProvenance prov, 0, none, now⟩ := by
  simp [record_hash]

theorem bumpAccess_lookup {st : HashTable} {id : String} (now : String) {r : HashRow}
    (hr : st id = some r) :
    bumpAccess st id now id =
      some { r with access_count := r.access_count + 1, last_accessed := some now } := by
  simp [bumpAccess, hr]

/-- Pigeonhole for byte sequences: a sequence of 32-byte lists indexed by the
infinitely many naturals has two distinct indices with equal lists. -/
theorem bounded_seq_collision (f : ℕ → List Nat) (hlen : ∀ n, (f n).length = 32)
    (hmem : ∀ n, ∀ b ∈ f n, b < 256) : ∃ a b : ℕ, a ≠ b ∧ f a = f b := by
  have hbound : ∀ n, beVal (f n) < 256 ^ 32 := by
    intro n
    have h1 := beVal_lt (hmem n)
    rwa [hlen n] at h1
  obtain ⟨a, b, hab, hfeq⟩ := Finite.exists_ne_map_eq_of_infinite
    (fun n : ℕ => (⟨beVal (f n), hbound n⟩ : Fin (256 ^ 32)))
  exact ⟨a, b, hab, beVal_inj (by rw [hlen a, hlen b]) (hmem a) (hmem b)
    (congrArg Fin.val hfeq)⟩

/-- C4 counterexample: it is not the case that after `record_hash` of a content
and a successful `verify_chunk` of it, every different content fails to
verify: SHA-256 maps the infinitely many contents `aString n` into finitely
many digests, so two distinct contents share a chunk hash, and the second
verifies against the record of the first. -/
theorem record_verify_distinct_content_claim_false :
    ¬ (∀ (st : HashTable) (id p c c' : String) (prov : Provenance) (now now1 now2 : String),
        c' ≠ c →
        (verify_chunk (verify_chunk (record_hash st id p c prov now).2 id p c now1).2
          id p c' now2).1 = false) := by
  intro h
  obtain ⟨a, b, hab, hsha⟩ := bounded_seq_collision
    (fun n => sha256 (chunkHashInput "p" (aString n) "t"))
    (fun n => sha256_length _) (fun n x hx => sha256_mem_lt hx)
  have hhash : compute_chunk_hash "p" (aString a) "t"
      = compute_chunk_hash "p" (aString b) "t" :=
    congrArg (fun bs => String.mk (hexOfBytes bs)) hsha
  have hne : aString b ≠ aString a := fun he => hab (aString_injective he).symm
  have hst1 := record_hash_lookup emptyTable "c1" "p" (aString a) .UserStated "t"
  have hv1 := verify_chunk_eq_true "p" (aString a) "t1" hst1 rfl
  have hst2 : (verify_chunk (record_hash emptyTable "c1" "p" (aString a)
      .UserStated "t").2 "c1" "p" (aString a) "t1").2 "c1" =
      some ⟨"p", compute_chunk_hash "p" (aString a) "t", "t",
        serializeProvenance .UserStated, 1, some "t1", "t"⟩ := by
    rw [hv1]
    exact bumpAccess_lookup "t1" hst1
  have hv2 := verify_chunk_eq_true "p" (aString b) "t2" hst2 hhash
  have hfalse := h emptyTable "c1" "p" (aString a) (aString b) .UserStated "t" "t1" "t2" hne
  rw [hv2] at hfalse
  simp at hfalse

/-- C4 amended: after `record_hash(chunk_id, path, content)`, a `verify_chunk`
with the identical path and content returns true, and a subsequent
`verify_chunk` with a content whose chunk hash (at the recorded timestamp)
differs from that of the original content — in particular any different
content barring a SHA-256 collision — returns false. -/
theorem record_then_verify_roundtrip (st : HashTable) (id p c : String) (prov : Provenance)
    (now now1 : String) :
    (verify_chunk (record_hash st id p c prov now).2 id p c now1).1 = true ∧
    (∀ c' now2, compute_chunk_hash p c' now ≠ compute_chunk_hash p c now →
      (verify_chunk (verify_chunk (record_hash st id p c prov now).2 id p c now1).2
        id p c' now2).1 = false) := by
  have hst1 := record_hash_lookup st id p c prov now
  have hv1 := verify_chunk_eq_true p c now1 hst1 rfl
  refine ⟨by rw [hv1], fun c' now2 hne => ?_⟩
  have hst2 : (verify_chunk (record_hash st id p c prov now).2 id p c now1).2 id =
      some ⟨p, compute_chunk_hash p c now, now, serializeProvenance prov, 1, some now1, now⟩ := by
    rw [hv1]
    exact bumpAccess_lookup now1 hst1
  have hv2 := verify_chunk_eq_false p c' now2 hst2 (fun he => hne he.symm)
  rw [hv2]

set_option maxRecDepth 400000 in
set_option maxHeartbeats 2000000 in
/-- C4 witness: the amended theorem applied at scenario 2 and 3 of the spec:
record `("c1","notes.md","alpha")`, verify `"alpha"` (true), then verify
`"ALPHA"` (false), the hash inequality discharged by computing both
SHA-256 digests. -/
theorem record_then_verify_roundtrip_witness :
    (verify_chunk (record_hash emptyTable "c1" "notes.md" "alpha" .UserStated "t0").2
      "c1" "notes.md" "alpha" "t1").1 = true ∧
    (verify_chunk (verify_chunk (record_hash emptyTable "c1" "notes.md" "alpha"
      .UserStated "t0").2 "c1" "notes.md" "alpha" "t1").2
      "c1" "notes.md" "ALPHA" "t2").1 = false :=
  ⟨(record_then_verify_roundtrip emptyTable "c1" "notes.md" "alpha" .UserStated "t0" "t1").1,
   (record_then_verify_roundtrip emptyTable "c1" "notes.md" "alpha" .UserStated "t0" "t1").2
     "ALPHA" "t2" (by decide)⟩

/-! ## C9: exact round trip of the vector codec -/

theorem digitVal_digitChar {d : Nat} (hd : d < 10) : digitVal (digitChar d) = some d := by
  interval_cases d <;> decide

theorem digitChar_ne_dot {d : Nat} (hd : d < 10) : digitChar d ≠ '.' := by
  interval_cases d <;> decide

theorem digitChar_ne_dash {d : Nat} (hd : d < 10) : digitChar d ≠ '-' := by
  interval_cases d <;> decide

theorem digitChar_ne_comma {d : Nat} (hd : d < 10) : digitChar d ≠ ',' := by
  interval_cases d <;> decide

theorem parseNatChars_map_aux (l : List Nat) (hl : ∀ d ∈ l, d < 10) (a : Nat) :
    List.foldl (fun acc c => acc.bind (fun x => (digitVal c).map (fun d => 10 * x + d)))
      (some a) (l.map digitChar) = some (l.foldl (fun x d => 10 * x + d) a) := by
  induction l generalizing a with
  | nil => simp
  | cons d t ih =>
      have hd : d < 10 := hl d (List.mem_cons_self d t)
      simp only [List.map_cons, List.foldl_cons, Option.some_bind, digitVal_digitChar hd,
        Option.map_some]
      exact ih (fun x hx => hl x (List.mem_cons_of_mem d hx)) (10 * a + d)

theorem parseNatChars_map (l : List Nat) (hl : ∀ d ∈ l, d < 10) :
    parseNatChars (l.map digitChar) = some (msbVal l) :=
  parseNatChars_map_aux l hl 0

theorem foldr_eq_ofDigits (l : List Nat) :
    l.foldr (fun d acc => 10 * acc + d) 0 = Nat.ofDigits 10 l := by
  induction l with
  | nil => simp [Nat.ofDigits]
  | cons d t ih => simp [Nat.ofDigits_cons, ih]; ring

theorem msbVal_reverse_digits (n : Nat) : msbVal ((Nat.digits 10 n).reverse) = n := by
  rw [msbVal, List.foldl_reverse, foldr_eq_ofDigits, Nat.ofDigits_digits]

theorem msbVal_replicate_zero (j : Nat) (l : List Nat) :
    msbVal (List.replicate j 0 ++ l) = msbVal l := by
  rw [msbVal, msbVal, List.foldl_append]
  congr 1
  induction j with
  | zero => rfl
  | succ i ih => simpa [List.replicate_succ] using ih

theorem natChars_all_digit (n : Nat) : ∀ c ∈ natChars n, ∃ d, d < 10 ∧ c = digitChar d := by
  intro c hc
  by_cases hn : n = 0
  · subst hn
    simp only [natChars, if_true, reduceIte, List.mem_singleton] at hc
    exact ⟨0, by norm_num, by rw [hc]; rfl⟩
  · rw [natChars, if_neg hn] at hc
    simp only [List.mem_map] at hc
    obtain ⟨d, hd, rfl⟩ := hc
    exact ⟨d, Nat.digits_lt_base (by norm_num) (List.mem_reverse.mp hd), rfl⟩

theorem natChars_ne_nil (n : Nat) : natChars n ≠ [] := by
  by_cases hn : n = 0
  · subst hn; simp [natChars]
  · rw [natChars, if_neg hn]
    simp [Nat.digits_ne_nil_iff_ne_zero.mpr hn]

theorem parseNatChars_natChars (n : Nat) : parseNatChars (natChars n) = some n := by
  by_cases hn : n = 0
  · subst hn; decide
  · rw [natChars, if_neg hn,
      parseNatChars_map _ (fun d hd => Nat.digits_lt_base (by norm_num) (List.mem_reverse.mp hd)),
      msbVal_reverse_digits]

theorem digits_length_le_of_lt_pow {m k : Nat} (hm : m < 10 ^ k) :
    (Nat.digits 10 m).length ≤ k := by
  rcases Nat.eq_zero_or_pos m with rfl | hpos
  · simp
  · by_contra hgt
    push_neg at hgt
    have h1 : 10 ^ (Nat.digits 10 m).length ≤ 10 * m :=
      Nat.base_pow_length_digits_le 10 m (by norm_num) hpos.ne'
    have h2 : 10 ^ (k + 1) ≤ 10 ^ (Nat.digits 10 m).length :=
      Nat.pow_le_pow_right (by norm_num) hgt
    rw [pow_succ] at h2
    have h3 : 10 ^ k * 10 ≤ 10 * m := le_trans h2 h1
    omega

theorem takeWhile_append_stop {p : Char → Bool} (l : List Char) (x : Char) (r : List Char)
    (hl : ∀ a ∈ l, p a = true) (hx : p x = false) :
    (l ++ x :: r).takeWhile p = l ∧ (l ++ x :: r).dropWhile p = x :: r := by
  induction l with
  | nil => simp [List.takeWhile_cons, List.dropWhile_cons, hx]
  | cons a t ih =>
      have ha : p a = true := hl a (List.mem_cons_self a t)
      have iht := ih (fun b hb => hl b (List.mem_cons_of_mem a hb))
      simp [List.takeWhile_cons, List.dropWhile_cons, ha, iht.1, iht.2]

theorem frac_digits_length_le (N k : Nat) :
    (Nat.digits 10 (N % 10 ^ k)).length ≤ max k 1 := by
  rcases Nat.eq_zero_or_pos k with rfl | hk
  · simp [Nat.mod_one]
  · exact le_trans
      (digits_length_le_of_lt_pow (Nat.mod_lt _ (Nat.pos_pow_of_pos k (by norm_num))))
      (le_max_left k 1)

theorem div_add_mod_decimal (N k : Nat) :
    ((N / 10 ^ k : ℕ) : ℚ) + ((N % 10 ^ k : ℕ) : ℚ) / 10 ^ max k 1 = (N : ℚ) / 10 ^ k := by
  rcases Nat.eq_zero_or_pos k with rfl | hk
  · simp [Nat.mod_one]
  · rw [max_eq_left hk]
    have h10 : ((10 : ℚ) ^ k) ≠ 0 := by positivity
    have h2 : N / 10 ^ k * 10 ^ k + N % 10 ^ k = N := by
      rw [mul_comm]
      exact Nat.div_add_mod N (10 ^ k)
    rw [eq_div_iff h10, add_mul, div_mul_cancel₀ _ h10]
    exact_mod_cast h2

/-- Parsing the unsigned decimal expansion of `N / 10^k` recovers it exactly. -/
theorem ratParseUnsigned_serialize (N k : Nat) :
    ratParseUnsigned (ratSerializeUnsigned N k) = some ((N : ℚ) / 10 ^ k) := by
  have hdig : ∀ d ∈ (Nat.digits 10 (N % 10 ^ k)).reverse, d < 10 :=
    fun d hd => Nat.digits_lt_base (by norm_num) (List.mem_reverse.mp hd)
  have hdigit0 : ('0' : Char) = digitChar 0 := rfl
  set fdn := (Nat.digits 10 (N % 10 ^ k)).reverse with hfdn
  set pad := max k 1 - (fdn.map digitChar).length with hpad
  have hfr : List.replicate pad '0' ++ fdn.map digitChar
      = (List.replicate pad 0 ++ fdn).map digitChar := by
    rw [List.map_append, List.map_replicate, hdigit0]
  have hsplit := takeWhile_append_stop (p := (· ≠ '.'))
    (natChars (N / 10 ^ k)) '.' (List.replicate pad '0' ++ fdn.map digitChar)
    (fun a ha => by
      obtain ⟨d, hd, rfl⟩ := natChars_all_digit _ a ha
      simpa using digitChar_ne_dot hd)
    (by simp)
  have hlen : (List.replicate pad '0' ++ fdn.map digitChar).length = max k 1 := by
    have hle : (fdn.map digitChar).length ≤ max k 1 := by
      rw [List.length_map, hfdn, List.length_reverse]
      exact frac_digits_length_le N k
    simp only [List.length_append, List.length_replicate, hpad]
    omega
  have hfrac : parseNatChars (List.replicate pad '0' ++ fdn.map digitChar)
      = some (N % 10 ^ k) := by
    rw [hfr, parseNatChars_map _ (by
      intro d hd
      rcases List.mem_append.mp hd with h | h
      · rw [List.eq_of_mem_replicate h]; norm_num
      · exact hdig d h), msbVal_replicate_zero, hfdn, msbVal_reverse_digits]
  show ratParseUnsigned (natChars (N / 10 ^ k) ++
    '.' :: (List.replicate pad '0' ++ fdn.map digitChar)) = _
  simp only [ratParseUnsigned, hsplit.1, hsplit.2]
  simp [parseNatChars_natChars, hfrac, hlen, div_add_mod_decimal N k]

/-- Parsing the serialized form of a dyadic rational recovers it exactly. -/
theorem ratParse_ratSerialize {q : ℚ} (hq : IsDyadic q) : ratParse (ratSerialize q) = some q := by
  obtain ⟨k, hden⟩ := hq
  have hk : Nat.log2 q.den = k := by
    rw [hden, Nat.log2_eq_log_two, Nat.log_pow (by norm_num)]
  have habs : ((q.num.natAbs * 5 ^ k : ℕ) : ℚ) / 10 ^ k = (q.num.natAbs : ℚ) / (q.den : ℚ) := by
    rw [hden]
    push_cast
    rw [show ((10 : ℚ)) ^ k = 2 ^ k * 5 ^ k by rw [← mul_pow]; norm_num]
    exact mul_div_mul_right _ _ (by positivity)
  rcases lt_or_ge q.num 0 with hneg | hpos
  · have hser : ratSerialize q = '-' :: ratSerializeUnsigned (q.num.natAbs * 5 ^ k) k := by
      rw [ratSerialize, hk, if_pos hneg, List.singleton_append]
    have hcast : ((q.num.natAbs : ℚ)) = -(q.num : ℚ) := by
      rw [Int.cast_natAbs]
      exact_mod_cast abs_of_neg hneg
    rw [hser, ratParse, if_pos (by simp), List.tail_cons, ratParseUnsigned_serialize,
      habs, hcast]
    simp only [Option.map_some']
    rw [neg_div, neg_neg, Rat.num_div_den]
  · have hser : ratSerialize q = ratSerializeUnsigned (q.num.natAbs * 5 ^ k) k := by
      rw [ratSerialize, hk, if_neg (not_lt.mpr hpos), List.nil_append]
    have hcast : ((q.num.natAbs : ℚ)) = (q.num : ℚ) := by
      rw [Int.cast_natAbs]
      exact_mod_cast abs_of_nonneg hpos
    have hhead : (ratSerializeUnsigned (q.num.natAbs * 5 ^ k) k).head? ≠ some '-' := by
      obtain ⟨c, t, hct⟩ := List.exists_cons_of_ne_nil
        (natChars_ne_nil (q.num.natAbs * 5 ^ k / 10 ^ k))
      have hcd : c ∈ natChars (q.num.natAbs * 5 ^ k / 10 ^ k) := by
        rw [hct]; exact List.mem_cons_self c t
      obtain ⟨d, hd, rfl⟩ := natChars_all_digit _ c hcd
      show (natChars (q.num.natAbs * 5 ^ k / 10 ^ k) ++ _).head? ≠ some '-'
      rw [hct, List.cons_append, List.head?_cons]
      intro hcon
      exact digitChar_ne_dash hd (Option.some.inj hcon)
    rw [hser, ratParse, if_neg hhead, ratParseUnsigned_serialize, habs, hcast,
      Rat.num_div_den]

theorem ratSerializeUnsigned_chars {N k : Nat} {c : Char} (hc : c ∈ ratSerializeUnsigned N k) :
    c = '.' ∨ ∃ d, d < 10 ∧ c = digitChar d := by
  simp only [ratSerializeUnsigned, List.mem_append, List.mem_cons] at hc
  rcases hc with h | h | h2 | h2
  · exact .inr (natChars_all_digit _ c h)
  · exact .inl h
  · rw [List.eq_of_mem_replicate h2]
    exact .inr ⟨0, by norm_num, rfl⟩
  · obtain ⟨d, hd, rfl⟩ := List.mem_map.mp h2
    exact .inr ⟨d, Nat.digits_lt_base (by norm_num) (List.mem_reverse.mp hd), rfl⟩

theorem ratSerialize_not_comma (q : ℚ) : ',' ∉ ratSerialize q := by
  intro hmem
  rw [ratSerialize] at hmem
  rcases List.mem_append.mp hmem with h | h
  · by_cases hneg : q.num < 0 <;> simp [hneg] at h
  · rcases ratSerializeUnsigned_chars h with h1 | ⟨d, hd, h1⟩
    · exact absurd h1 (by decide)
    · exact digitChar_ne_comma hd h1.symm

theorem ratSerialize_ne_nil (q : ℚ) : ratSerialize q ≠ [] := by
  rw [ratSerialize]
  intro h
  have h2 := (List.append_eq_nil.mp h).2
  rw [ratSerializeUnsigned] at h2
  have := (List.append_eq_nil.mp h2).2
  simp at this

theorem parseAll_map_serialize (v : List ℚ) (hv : ∀ q ∈ v, IsDyadic q) :
    parseAll (v.map ratSerialize) = some v := by
  induction v with
  | nil => rfl
  | cons q t ih =>
      simp only [List.map_cons, parseAll,
        ratParse_ratSerialize (hv q (List.mem_cons_self q t)),
        ih (fun x hx => hv x (List.mem_cons_of_mem q hx))]

theorem intercalate_comma_cons_ne_nil {a : List Char} (l : List (List Char)) (ha : a ≠ []) :
    List.intercalate [','] (a :: l) ≠ [] := by
  cases l with
  | nil => simpa [List.intercalate]
  | cons b r =>
      simp only [List.intercalate, List.intersperse_cons_cons, List.flatten_cons]
      intro h
      exact ha (List.append_eq_nil.mp h).1

/-- C9: for every vector of dyadic rationals (the value set of finite `f32`
components under the exact-decimal model of the serde number codec),
`deserialize_embedding (serialize_embedding v) = v` exactly. The
`unwrap_or_else` fallback of the source returns `"[]"` on a serialization
failure, which cannot occur for a float slice; the model serializer is
accordingly total, and `serialize_embedding [] = "[]"` holds literally. -/
theorem deserialize_serialize_embedding (v : List ℚ) (hv : ∀ q ∈ v, IsDyadic q) :
    deserialize_embedding (serialize_embedding v) = v := by
  rw [deserialize_embedding, serialize_embedding]
  show (parseFloatList (String.mk ('[' ::
    (List.intercalate [','] (v.map ratSerialize) ++ [']'])))).getD [] = v
  rw [parseFloatList]
  simp only [List.getLast?_concat, List.dropLast_concat]
  cases v with
  | nil => rfl
  | cons q t =>
      have hne : List.intercalate [','] ((q :: t).map ratSerialize) ≠ [] := by
        rw [List.map_cons]
        exact intercalate_comma_cons_ne_nil _ (ratSerialize_ne_nil q)
      rw [if_neg hne,
        List.splitOn_intercalate ((q :: t).map ratSerialize) ','
          (fun l hl => by
            obtain ⟨x, -, rfl⟩ := List.mem_map.mp hl
            exact ratSerialize_not_comma x)
          (by simp),
        parseAll_map_serialize _ hv]
      rfl

/-- C9 witness: the theorem applied at `[1/2, -13/4, 3]`, all dyadic, together
with the literal empty-array form. -/
theorem deserialize_serialize_embedding_witness :
    (∀ q ∈ ([1 / 2, -13 / 4, 3] : List ℚ), IsDyadic q) ∧
    deserialize_embedding (serialize_embedding ([1 / 2, -13 / 4, 3] : List ℚ))
      = [1 / 2, -13 / 4, 3] ∧
    serialize_embedding ([] : List ℚ) = "[]" := by
  have hdy : ∀ q ∈ ([1 / 2, -13 / 4, 3] : List ℚ), IsDyadic q := by
    intro q hq
    simp only [List.mem_cons, List.not_mem_nil, or_false] at hq
    rcases hq with rfl | rfl | rfl
    · exact ⟨1, by norm_num⟩
    · exact ⟨2, by norm_num⟩
    · exact ⟨0, by norm_num⟩
  exact ⟨hdy, deserialize_serialize_embedding _ hdy, by decide⟩

end HomeGpt
